import Mathlib

/-!
Shallow embedding of `src/TODO/srinath-files/python/textutils.py`.

Python strings are modelled as lists of characters (`Str`), Python ints as
`Int`, and code that can raise an exception as `Option`-valued.  The global
pseudorandom generator used by `random.shuffle` is modelled by an explicit
shuffle oracle `σ : List Nat → List Nat`; every theorem that depends on the
shuffle quantifies over all oracles that permute their input.
-/

namespace Textutils

/-- Python strings, modelled as lists of characters. -/
abbrev Str := List Char

/-- Python's `str.split()` whitespace set: space, tab, newline, carriage
return, vertical tab, form feed. -/
def isSpace (c : Char) : Bool :=
  c = ' ' || c = '\t' || c = '\n' || c = '\r' || c = '\x0b' || c = '\x0c'

/-- Drop leading newline characters (used for the greedy `\n\n+` regexp
separator and, on reversed strings, for `re.sub(r"\n+$", "", ...)`). -/
def dropNL : Str → Str
  | [] => []
  | c :: rest => if c = '\n' then dropNL rest else c :: rest

/-- Single left-to-right pass of `str.split()`, carrying the current word
reversed in `acc`.  A word is emitted when whitespace or the end of the
string is reached; leading, trailing and repeated whitespace produce no
empty words, exactly as `str.split()` with no arguments behaves. -/
def splitWordsAux : Str → Str → List Str
  | [], acc =>
    match acc with
    | [] => []
    | a :: as => [(a :: as).reverse]
  | c :: rest, acc =>
    if isSpace c then
      match acc with
      | [] => splitWordsAux rest []
      | a :: as => (a :: as).reverse :: splitWordsAux rest []
    else
      splitWordsAux rest (c :: acc)

/-- Python's `str.split()`: maximal runs of non-whitespace characters. -/
def splitWords (s : Str) : List Str := splitWordsAux s []

/-- Single left-to-right pass of `re.split(r'\n\n+', text)`.  `pending`
counts the newlines seen since the last other character and `acc` holds the
current piece reversed.  Two or more pending newlines form a separator (the
greedy `\n\n+` match); a single pending newline belongs to the piece. -/
def splitParasAux : Str → Nat → Str → List Str
  | [], pending, acc =>
    if 2 ≤ pending then [acc.reverse, []]
    else [acc.reverse ++ List.replicate pending '\n']
  | c :: rest, pending, acc =>
    if c = '\n' then splitParasAux rest (pending + 1) acc
    else if 2 ≤ pending then acc.reverse :: splitParasAux rest 0 [c]
    else splitParasAux rest 0 (c :: (List.replicate pending '\n' ++ acc))

/-- Python's `re.split(r'\n\n+', text)`: split at maximal runs of two or
more newlines.  Boundary separators yield empty pieces, exactly as
`re.split` produces them. -/
def splitParas (s : Str) : List Str := splitParasAux s 0 []

/-- A string with no two adjacent newline characters, i.e. one that
`re.split(r'\n\n+', ...)` leaves in a single piece. -/
def noNN : Str → Bool
  | [] => true
  | c :: rest => (!(c == '\n' && rest.head? == some '\n')) && noNN rest

/-- A piece that the splitter reproduces verbatim: non-empty, not starting
or ending with a newline, and containing no two adjacent newlines. -/
def solidPiece (p : Str) : Prop :=
  p ≠ [] ∧ p.head? ≠ some '\n' ∧ p.getLast? ≠ some '\n' ∧ noNN p = true

/-- Python's `str.split("\n")`: split at every single newline. -/
def splitNL : Str → List Str
  | [] => [[]]
  | c :: rest =>
    if c = '\n' then [] :: splitNL rest
    else
      match splitNL rest with
      | [] => [[c]]
      | p :: ps => (c :: p) :: ps

/-- Python's `' '.join(line)`. -/
def joinWords : List Str → Str
  | [] => []
  | [w] => w
  | w :: ws => w ++ ' ' :: joinWords ws

/-- Python's `sep.join(items)` for an arbitrary separator string. -/
def joinWith (sep : Str) : List Str → Str
  | [] => []
  | [x] => x
  | x :: xs => x ++ sep ++ joinWith sep xs

/-- The in-place update `line[j] += ' '` of `JustifyLine`. -/
def addSpaceAt : List Str → Nat → List Str
  | [], _ => []
  | w :: ws, 0 => (w ++ [' ']) :: ws
  | w :: ws, j + 1 => w :: addSpaceAt ws j

/-- Fuel-indexed loop body of `JustifyLine`.  Each pass appends one space at
the word index popped from the pool, refilling the pool through the shuffle
oracle `σ` when it is exhausted, and stops as soon as the space-joined line
reaches `width`.  The fuel only bounds the iteration count; `JustifyLine`
supplies enough fuel for the loop to always reach its exit condition on the
inputs the program produces (a non-empty word list).  The `[]` match arm is
unreachable when `σ` permutes its input, since `List.range (max 1 n)` is
never empty; on the empty word list the Python loop would fault with an
IndexError, a state no caller reaches. -/
def justifyLineAux (σ : List Nat → List Nat) (width : Int) :
    Nat → List Str → List Nat → Str
  | 0, line, _ => joinWords line
  | fuel + 1, line, pool =>
    if ((joinWords line).length : Int) < width then
      match (if pool.isEmpty then σ (List.range (max 1 (line.length - 1))) else pool) with
      | [] => joinWords line
      | j :: rest => justifyLineAux σ width fuel (addSpaceAt line j) rest
    else
      joinWords line

/-- `JustifyLine(line, width)`: stretch a line (a list of words) to `width`
by appending spaces to randomly chosen words, the randomness supplied by the
shuffle oracle `σ`. -/
def JustifyLine (σ : List Nat → List Nat) (line : List Str) (width : Int) : Str :=
  justifyLineAux σ width (width.toNat + 1) line []

/-- The greedy line-breaking loop of `FillParagraphs`: given the remaining
words and the line under construction, return the paragraph's lines as word
lists, the final (possibly empty) partial line last.  Closing a line does
not consume the word that overflowed it, exactly as in the source. -/
def fillLines (width : Int) : List Str → List Str → List (List Str)
  | [], line => [line]
  | w :: ws, line =>
    if ((joinWords (line ++ [w])).length : Int) > width ∧ line ≠ [] then
      -- Closing a line leaves the words untouched; on the very next loop
      -- iteration the guard is false (the line is now empty), so `w` is
      -- unconditionally moved onto the fresh line.  The two iterations are
      -- fused here to keep the recursion structural.
      line :: fillLines width ws [w]
    else
      fillLines width ws (line ++ [w])

/-- Render the word-list lines of one paragraph: every line but the last is
justified when `justify` is set, and the final line is always the plain
single-space join. -/
def renderLines (σ : List Nat → List Nat) (width : Int) (justify : Bool) :
    List (List Str) → List Str
  | [] => []
  | [l] => [joinWords l]
  | l :: l' :: ls =>
    (if justify then JustifyLine σ l width else joinWords l) ::
      renderLines σ width justify (l' :: ls)

/-- The rendered lines of one paragraph of `FillParagraphs`. -/
def paraLines (σ : List Nat → List Nat) (width : Int) (justify : Bool) (p : Str) :
    List Str :=
  renderLines σ width justify (fillLines width (splitWords p) [])

/-- One paragraph of `FillParagraphs`: words re-wrapped and joined with
single newlines. -/
def fillPara (σ : List Nat → List Nat) (width : Int) (justify : Bool) (p : Str) :
    Str :=
  joinWith ['\n'] (paraLines σ width justify p)

/-- `FillParagraphs(text, width, justify)`: split into paragraphs at runs of
two or more newlines, wrap (and optionally justify) each, and rejoin with
exactly two newlines. -/
def FillParagraphs (σ : List Nat → List Nat) (text : Str) (width : Int)
    (justify : Bool) : Str :=
  joinWith ['\n', '\n'] ((splitParas text).map (fillPara σ width justify))

/-- Python's `" " * k` (empty for non-positive `k`). -/
def spaces (k : Int) : Str := List.replicate k.toNat ' '

/-- Python's `"\n" * k` (empty for non-positive `k`). -/
def newlines (k : Int) : Str := List.replicate k.toNat '\n'

/-- Pad a line on the right with spaces up to width `w`; a no-op when the
line is already at least `w` long, as the negative repeat count degenerates
to the empty string. -/
def padTo (w : Int) (l : Str) : Str := l ++ spaces (w - (l.length : Int))

/-- Tail of the `VertCatString` loop once the left block's lines are
exhausted: each remaining right line is preceded by a synthesised blank
left line of `w1` spaces (itself padded to `w1`, a no-op). -/
def vcatBlanks (w1 : Int) : List Str → List Str
  | [] => []
  | l2 :: ls2 => (padTo w1 (spaces w1) ++ l2) :: vcatBlanks w1 ls2

/-- The line-merging loop of `VertCatString`: pad each left line to `w1` and
append the corresponding right line, synthesising a blank left line of `w1`
spaces or an empty right line when one list is shorter. -/
def vcatLines (w1 : Int) : List Str → List Str → List Str
  | [], ls2 => vcatBlanks w1 ls2
  | l1 :: ls1, [] => padTo w1 l1 :: vcatLines w1 ls1 []
  | l1 :: ls1, l2 :: ls2 => (padTo w1 l1 ++ l2) :: vcatLines w1 ls1 ls2

/-- `VertCatString(string1, width1, string2)`: concatenate two newline-
separated blocks side by side, padding the left block's lines to `width1`
(computed as the left block's maximum line length when `width1` is `None`). -/
def VertCatString (string1 : Str) (width1 : Option Int) (string2 : Str) : Str :=
  let lines1 := splitNL string1
  let lines2 := splitNL string2
  let w1 : Int :=
    match width1 with
    | some w => w
    | none => lines1.foldl (fun acc l => max acc (l.length : Int)) (-1)
  joinWith ['\n'] (vcatLines w1 lines1 lines2)

/-- The column-width computation of `FormatTable`: the maximum cell length
at column `i` over all rows that have a cell there, starting from the
dictionary default `-1`. -/
def colMax (tableText : List (List Str)) (i : Nat) : Int :=
  tableText.foldl
    (fun acc row =>
      match row.get? i with
      | some cell => max (cell.length : Int) acc
      | none => acc)
    (-1)

/-- The inner column loop of `FormatTable`: starting from cell 0's text and
the first column's capped width, concatenate a `colSpace`-wide spacer and
then the next cell, advancing the running width. -/
def formatRowCells (maxl : Nat → Int) (colSpace : Int) :
    Nat → Int → Str → List Str → Str
  | _, _, rowtext, [] => rowtext
  | i, width, rowtext, cell :: cells =>
    let rt1 := VertCatString rowtext (some width) (spaces colSpace)
    let rt2 := VertCatString rt1 (some (width + colSpace)) cell
    formatRowCells maxl colSpace (i + 1) (width + colSpace + maxl i) rt2 cells

/-- Format one table row.  A row with zero cells makes the source fault with
an IndexError at `row[0]`, modelled as `none`. -/
def formatRow (maxl : Nat → Int) (colSpace : Int) : List Str → Option Str
  | [] => none
  | cell0 :: cells => some (formatRowCells maxl colSpace 1 (maxl 0) cell0 cells)

/-- Accumulate the formatted rows, each followed by `rowSpace` newlines,
propagating the empty-row fault. -/
def formatRows (maxl : Nat → Int) (colSpace rowSpace : Int) :
    List (List Str) → Option Str
  | [] => some []
  | row :: rows => do
    let rt ← formatRow maxl colSpace row
    let rest ← formatRows maxl colSpace rowSpace rows
    pure (rt ++ newlines rowSpace ++ rest)

/-- Python's `re.sub(r"\n+$", "", s)`: strip all trailing newlines. -/
def dropTrailingNLs (s : Str) : Str := (dropNL s.reverse).reverse

/-- Lay out already-transformed cell rows with the given per-column widths. -/
def tableLayout (maxl : Nat → Int) (rowSpace colSpace : Int)
    (rows : List (List Str)) : Option Str :=
  (formatRows maxl colSpace rowSpace rows).map dropTrailingNLs

/-- `FormatTable(tableText, ROW_SPACE, COL_SPACE, COL_WIDTH, TABLE_WIDTH,
justify)`.  Column widths are computed from the original cells and capped at
`COL_WIDTH`.  When `justify` is truthy each cell is replaced by
`FillParagraphs(cell, COL_WIDTH)` — note that the source's
`map(FillParagraphs, row, [COL_WIDTH]*len(row))` supplies only two
arguments, so the `justify` argument of `FillParagraphs` keeps its default
`0`.  `TABLE_WIDTH` is accepted but never read. -/
def FormatTable (σ : List Nat → List Nat) (tableText : List (List Str))
    (ROW_SPACE COL_SPACE COL_WIDTH TABLE_WIDTH : Int) (justify : Bool) :
    Option Str :=
  let maxl : Nat → Int := fun i => min (colMax tableText i) COL_WIDTH
  let formattedTable :=
    if justify then
      tableText.map (fun row => row.map (fun cell => FillParagraphs σ cell COL_WIDTH false))
    else
      tableText
  tableLayout maxl ROW_SPACE COL_SPACE formattedTable

/-- The identity shuffle oracle, a valid permutation used for concrete
evaluations. -/
def idShuffle : List Nat → List Nat := fun l => l

/-- Written from the claim's words (not the source): the table layout that
claim C1 asserts for a truthy `justify` flag, in which every cell is
replaced by `ParagraphFiller.fill(cell, colWidth, justify = true)` before
layout.  Column widths are still computed from the original cells, as in
the source. -/
def formatTableClaimJustified (σ : List Nat → List Nat)
    (tableText : List (List Str)) (ROW_SPACE COL_SPACE COL_WIDTH : Int) :
    Option Str :=
  tableLayout (fun i => min (colMax tableText i) COL_WIDTH) ROW_SPACE COL_SPACE
    (tableText.map (fun row => row.map (fun cell => FillParagraphs σ cell COL_WIDTH true)))

/-- The amended cell transform for a truthy `justify` flag: every cell is
wrapped to the column width but its lines are not justified, because the
source's `map(FillParagraphs, row, [COL_WIDTH]*len(row))` never forwards
its own `justify` argument. -/
def formatTableWrappedCells (σ : List Nat → List Nat)
    (tableText : List (List Str)) (ROW_SPACE COL_SPACE COL_WIDTH : Int) :
    Option Str :=
  tableLayout (fun i => min (colMax tableText i) COL_WIDTH) ROW_SPACE COL_SPACE
    (tableText.map (fun row => row.map (fun cell => FillParagraphs σ cell COL_WIDTH false)))

/-- All display lines of a `FillParagraphs` result, in order: the lines of
each paragraph with one empty line between consecutive paragraphs (the
`"\n\n"` separator seen at line level). -/
def allLines (σ : List Nat → List Nat) (width : Int) (justify : Bool) :
    List Str → List Str
  | [] => []
  | [p] => paraLines σ width justify p
  | p :: p₂ :: ps => paraLines σ width justify p ++ [] :: allLines σ width justify (p₂ :: ps)

/-! ### Lemmas about `joinWords` and `addSpaceAt` -/

theorem joinWords_cons_of_ne_nil (w : Str) {ws : List Str} (h : ws ≠ []) :
    joinWords (w :: ws) = w ++ ' ' :: joinWords ws := by
  cases ws with
  | nil => exact absurd rfl h
  | cons w₂ ws => rfl

theorem addSpaceAt_length (l : List Str) (j : Nat) :
    (addSpaceAt l j).length = l.length := by
  induction l generalizing j with
  | nil => rfl
  | cons w ws ih =>
    cases j with
    | zero => rfl
    | succ j => simp [addSpaceAt, ih]

theorem addSpaceAt_of_le {l : List Str} {j : Nat} (h : l.length ≤ j) :
    addSpaceAt l j = l := by
  induction l generalizing j with
  | nil => rfl
  | cons w ws ih =>
    cases j with
    | zero => exact absurd h (by simp)
    | succ j =>
      simp only [addSpaceAt]
      rw [ih (Nat.le_of_succ_le_succ h)]

theorem joinWords_addSpaceAt_length {l : List Str} {j : Nat} (h : j < l.length) :
    (joinWords (addSpaceAt l j)).length = (joinWords l).length + 1 := by
  induction l generalizing j with
  | nil => exact absurd h (by simp)
  | cons w ws ih =>
    cases j with
    | zero =>
      cases ws with
      | nil => simp [addSpaceAt, joinWords]
      | cons w₂ ws =>
        simp only [addSpaceAt]
        rw [joinWords_cons_of_ne_nil _ (List.cons_ne_nil _ _),
          joinWords_cons_of_ne_nil _ (List.cons_ne_nil _ _)]
        simp
        omega
    | succ j =>
      have hj : j < ws.length := Nat.lt_of_succ_lt_succ h
      have hws : ws ≠ [] := List.ne_nil_of_length_pos (Nat.lt_of_le_of_lt (Nat.zero_le _) hj)
      have hws₂ : addSpaceAt ws j ≠ [] := by
        intro hc
        have := addSpaceAt_length ws j
        rw [hc] at this
        exact hws (List.eq_nil_of_length_eq_zero this.symm)
      simp only [addSpaceAt]
      rw [joinWords_cons_of_ne_nil _ hws₂, joinWords_cons_of_ne_nil _ hws]
      simp [ih hj]
      omega

theorem joinWords_length_le_addSpaceAt (l : List Str) (j : Nat) :
    (joinWords l).length ≤ (joinWords (addSpaceAt l j)).length := by
  by_cases h : j < l.length
  · rw [joinWords_addSpaceAt_length h]
    exact Nat.le_succ _
  · rw [addSpaceAt_of_le (Nat.le_of_not_lt h)]

theorem not_mem_joinWords {c : Char} (hc : c ≠ ' ') :
    ∀ {ws : List Str}, (∀ w ∈ ws, c ∉ w) → c ∉ joinWords ws := by
  intro ws
  induction ws with
  | nil => intro _; simp [joinWords]
  | cons w ws ih =>
    intro h
    cases ws with
    | nil => simpa [joinWords] using h w (by simp)
    | cons w₂ ws₂ =>
      rw [joinWords_cons_of_ne_nil _ (List.cons_ne_nil _ _)]
      intro hmem
      rcases List.mem_append.mp hmem with h₁ | h₂
      · exact h w (by simp) h₁
      · rcases List.mem_cons.mp h₂ with h₃ | h₄
        · exact hc h₃
        · exact ih (fun x hx => h x (List.mem_cons_of_mem _ hx)) h₄

theorem not_mem_of_mem_addSpaceAt {c : Char} (hc : c ≠ ' ') {l : List Str}
    (h : ∀ w ∈ l, c ∉ w) : ∀ w ∈ addSpaceAt l j, c ∉ w := by
  induction l generalizing j with
  | nil => simp [addSpaceAt]
  | cons w ws ih =>
    cases j with
    | zero =>
      intro x hx
      rcases List.mem_cons.mp hx with h₁ | h₂
      · subst h₁
        intro hmem
        rcases List.mem_append.mp hmem with h₃ | h₄
        · exact h w (by simp) h₃
        · simp at h₄
          exact hc h₄
      · exact h x (List.mem_cons_of_mem _ h₂)
    | succ j =>
      intro x hx
      rcases List.mem_cons.mp hx with h₁ | h₂
      · subst h₁
        exact h x (by simp)
      · exact ih (fun y hy => h y (List.mem_cons_of_mem _ hy)) x h₂

/-! ### Lemmas about `justifyLineAux` and `JustifyLine` -/

theorem justifyLineAux_length_le (σ : List Nat → List Nat) (width : Int) :
    ∀ (fuel : Nat) (line : List Str) (pool : List Nat),
      (joinWords line).length ≤ (justifyLineAux σ width fuel line pool).length := by
  intro fuel
  induction fuel with
  | zero => intro line pool; exact Nat.le_refl _
  | succ fuel ih =>
    intro line pool
    rw [justifyLineAux]
    by_cases h : ((joinWords line).length : Int) < width
    · rw [if_pos h]
      cases hpl : (if pool.isEmpty then σ (List.range (max 1 (line.length - 1))) else pool) with
      | nil => exact Nat.le_refl _
      | cons j rest =>
        exact Nat.le_trans (joinWords_length_le_addSpaceAt line j) (ih _ _)
    · rw [if_neg h]

theorem justifyLineAux_not_mem {c : Char} (hc : c ≠ ' ') (σ : List Nat → List Nat)
    (width : Int) :
    ∀ (fuel : Nat) (line : List Str) (pool : List Nat),
      (∀ w ∈ line, c ∉ w) → c ∉ justifyLineAux σ width fuel line pool := by
  intro fuel
  induction fuel with
  | zero => intro line pool h; exact not_mem_joinWords hc h
  | succ fuel ih =>
    intro line pool h
    rw [justifyLineAux]
    by_cases hlt : ((joinWords line).length : Int) < width
    · rw [if_pos hlt]
      cases hpl : (if pool.isEmpty then σ (List.range (max 1 (line.length - 1))) else pool) with
      | nil => exact not_mem_joinWords hc h
      | cons j rest => exact ih _ _ (not_mem_of_mem_addSpaceAt hc h)
    · rw [if_neg hlt]
      exact not_mem_joinWords hc h

theorem justifyLineAux_width_le (σ : List Nat → List Nat)
    (hσ : ∀ l, List.Perm (σ l) l) (width : Int) :
    ∀ (fuel : Nat) (line : List Str) (pool : List Nat), line ≠ [] →
      (∀ j ∈ pool, j < line.length) →
      width.toNat ≤ fuel + (joinWords line).length →
      width.toNat ≤ (justifyLineAux σ width fuel line pool).length := by
  intro fuel
  induction fuel with
  | zero =>
    intro line pool _ _ hw
    simpa [justifyLineAux] using hw
  | succ fuel ih =>
    intro line pool hne hpool hw
    have hlen : 0 < line.length := List.length_pos.mpr hne
    rw [justifyLineAux]
    by_cases h : ((joinWords line).length : Int) < width
    · rw [if_pos h]
      have hvalid : ∀ k ∈ (if pool.isEmpty then
          σ (List.range (max 1 (line.length - 1))) else pool), k < line.length := by
        cases pool with
        | nil =>
          intro k hk
          simp only [List.isEmpty_nil, if_pos] at hk
          have hk₂ := (hσ (List.range (max 1 (line.length - 1)))).mem_iff.mp hk
          have hk₃ := List.mem_range.mp hk₂
          omega
        | cons a as =>
          intro k hk
          simp only [List.isEmpty_cons, Bool.false_eq_true, if_false] at hk
          exact hpool k hk
      cases hpl : (if pool.isEmpty then σ (List.range (max 1 (line.length - 1))) else pool) with
      | nil =>
        exfalso
        cases pool with
        | nil =>
          simp only [List.isEmpty_nil, if_pos] at hpl
          have hperm := hσ (List.range (max 1 (line.length - 1)))
          rw [hpl] at hperm
          have := hperm.length_eq
          simp at this
          omega
        | cons a as => simp at hpl
      | cons j rest =>
        have hj : j < line.length := hvalid j (by rw [hpl]; simp)
        have hrest : ∀ k ∈ rest, k < (addSpaceAt line j).length := by
          intro k hk
          rw [addSpaceAt_length]
          exact hvalid k (by rw [hpl]; exact List.mem_cons_of_mem _ hk)
        have hne₂ : addSpaceAt line j ≠ [] :=
          List.ne_nil_of_length_pos (by rw [addSpaceAt_length]; exact hlen)
        apply ih _ _ hne₂ hrest
        rw [joinWords_addSpaceAt_length hj]
        omega
    · rw [if_neg h]
      have h₂ : width ≤ ((joinWords line).length : Int) := le_of_not_lt h
      exact Int.toNat_le.mpr h₂

theorem justifyLine_width_le (σ : List Nat → List Nat)
    (hσ : ∀ l, List.Perm (σ l) l) {line : List Str} (hne : line ≠ []) (width : Int) :
    width ≤ ((JustifyLine σ line width).length : Int) := by
  have h := justifyLineAux_width_le σ hσ width (width.toNat + 1) line [] hne
    (by simp) (by omega)
  exact Int.toNat_le.mp h

theorem justifyLine_of_already_wide (σ : List Nat → List Nat) {line : List Str}
    {width : Int} (h : width ≤ ((joinWords line).length : Int)) :
    JustifyLine σ line width = joinWords line := by
  rw [JustifyLine, justifyLineAux, if_neg (not_lt.mpr h)]

theorem joinWords_ne_nil {l : List Str} (hne : l ≠ []) (h : ∀ x ∈ l, x ≠ []) :
    joinWords l ≠ [] := by
  cases l with
  | nil => exact absurd rfl hne
  | cons x xs =>
    cases xs with
    | nil => exact h x (by simp)
    | cons x₂ xs₂ =>
      rw [joinWords_cons_of_ne_nil _ (List.cons_ne_nil _ _)]
      simp

theorem justifyLine_ne_nil (σ : List Nat → List Nat) {line : List Str}
    (width : Int) (h : joinWords line ≠ []) : JustifyLine σ line width ≠ [] := by
  have h₁ := justifyLineAux_length_le σ width (width.toNat + 1) line []
  have h₂ : 0 < (joinWords line).length := List.length_pos.mpr h
  exact List.ne_nil_of_length_pos (Nat.lt_of_lt_of_le h₂ h₁)

/-! ### Lemmas about `fillLines` -/

theorem fillLines_ne_nil (width : Int) :
    ∀ (words line : List Str), fillLines width words line ≠ [] := by
  intro words
  induction words with
  | nil => intro line; simp [fillLines]
  | cons w ws ih =>
    intro line
    rw [fillLines]
    by_cases h : ((joinWords (line ++ [w])).length : Int) > width ∧ line ≠ []
    · rw [if_pos h]; simp
    · rw [if_neg h]; exact ih _

theorem fillLines_flatten (width : Int) :
    ∀ (words line : List Str), (fillLines width words line).flatten = line ++ words := by
  intro words
  induction words with
  | nil => intro line; simp [fillLines]
  | cons w ws ih =>
    intro line
    rw [fillLines]
    by_cases h : ((joinWords (line ++ [w])).length : Int) > width ∧ line ≠ []
    · rw [if_pos h]
      rw [List.flatten_cons, ih [w]]
      simp
    · rw [if_neg h]
      rw [ih (line ++ [w])]
      simp

theorem fillLines_mem_prop (width : Int) (P : Str → Prop) :
    ∀ (words line : List Str), (∀ w ∈ words, P w) → (∀ x ∈ line, P x) →
      ∀ l ∈ fillLines width words line, ∀ x ∈ l, P x := by
  intro words
  induction words with
  | nil =>
    intro line _ hline l hl
    simp [fillLines] at hl
    subst hl
    exact hline
  | cons w ws ih =>
    intro line hwords hline l hl
    rw [fillLines] at hl
    by_cases h : ((joinWords (line ++ [w])).length : Int) > width ∧ line ≠ []
    · rw [if_pos h] at hl
      rcases List.mem_cons.mp hl with h₁ | h₂
      · subst h₁; exact hline
      · refine ih [w] (fun x hx => hwords x (List.mem_cons_of_mem _ hx)) ?_ l h₂
        intro x hx
        simp at hx
        subst hx
        exact hwords x (by simp)
    · rw [if_neg h] at hl
      refine ih (line ++ [w]) (fun x hx => hwords x (List.mem_cons_of_mem _ hx)) ?_ l hl
      intro x hx
      rcases List.mem_append.mp hx with h₁ | h₂
      · exact hline x h₁
      · simp at h₂
        subst h₂
        exact hwords x (by simp)

theorem fillLines_mem_ne_nil (width : Int) :
    ∀ (words line : List Str), (words ≠ [] ∨ line ≠ []) →
      ∀ l ∈ fillLines width words line, l ≠ [] := by
  intro words
  induction words with
  | nil =>
    intro line hne l hl
    simp [fillLines] at hl
    subst hl
    rcases hne with h | h
    · exact absurd rfl h
    · exact h
  | cons w ws ih =>
    intro line _ l hl
    rw [fillLines] at hl
    by_cases h : ((joinWords (line ++ [w])).length : Int) > width ∧ line ≠ []
    · rw [if_pos h] at hl
      rcases List.mem_cons.mp hl with h₁ | h₂
      · subst h₁; exact h.2
      · exact ih [w] (Or.inr (by simp)) l h₂
    · rw [if_neg h] at hl
      exact ih (line ++ [w]) (Or.inr (by simp)) l hl

theorem fillLines_width_bound (width : Int) :
    ∀ (words line : List Str),
      (line.length ≤ 1 ∨ ((joinWords line).length : Int) ≤ width) →
      ∀ l ∈ fillLines width words line,
        l.length ≤ 1 ∨ ((joinWords l).length : Int) ≤ width := by
  intro words
  induction words with
  | nil =>
    intro line hline l hl
    simp [fillLines] at hl
    subst hl
    exact hline
  | cons w ws ih =>
    intro line hline l hl
    rw [fillLines] at hl
    by_cases h : ((joinWords (line ++ [w])).length : Int) > width ∧ line ≠ []
    · rw [if_pos h] at hl
      rcases List.mem_cons.mp hl with h₁ | h₂
      · subst h₁; exact hline
      · exact ih [w] (Or.inl (by simp)) l h₂
    · rw [if_neg h] at hl
      refine ih (line ++ [w]) ?_ l hl
      by_cases hn : line = []
      · subst hn; exact Or.inl (by simp)
      · right
        rcases not_and_or.mp h with h₁ | h₂
        · exact le_of_not_lt h₁
        · exact absurd hn h₂

theorem fillLines_dropLast_ne_nil (width : Int) :
    ∀ (words line : List Str),
      ∀ l ∈ (fillLines width words line).dropLast, l ≠ [] := by
  intro words
  induction words with
  | nil => intro line l hl; simp [fillLines] at hl
  | cons w ws ih =>
    intro line l hl
    rw [fillLines] at hl
    by_cases h : ((joinWords (line ++ [w])).length : Int) > width ∧ line ≠ []
    · rw [if_pos h] at hl
      rw [List.dropLast_cons_of_ne_nil (fillLines_ne_nil width ws [w])] at hl
      rcases List.mem_cons.mp hl with h₁ | h₂
      · subst h₁; exact h.2
      · exact ih [w] l h₂
    · rw [if_neg h] at hl
      exact ih (line ++ [w]) l hl

/-! ### Lemmas about `renderLines` and `paraLines` -/

theorem getLast?_cons_of_ne_nil {α : Type} (a : α) {l : List α} (h : l ≠ []) :
    (a :: l).getLast? = l.getLast? := by
  cases l with
  | nil => exact absurd rfl h
  | cons b t => exact List.getLast?_cons_cons

theorem renderLines_ne_nil (σ : List Nat → List Nat) (width : Int) (justify : Bool) :
    ∀ {ls : List (List Str)}, ls ≠ [] → renderLines σ width justify ls ≠ [] := by
  intro ls hne
  cases ls with
  | nil => exact absurd rfl hne
  | cons l ls =>
    cases ls with
    | nil => simp [renderLines]
    | cons l₂ ls₂ => simp [renderLines]

theorem renderLines_false_eq_map (σ : List Nat → List Nat) (width : Int) :
    ∀ (ls : List (List Str)), renderLines σ width false ls = ls.map joinWords := by
  intro ls
  induction ls with
  | nil => rfl
  | cons l ls ih =>
    cases ls with
    | nil => rfl
    | cons l₂ ls₂ =>
      rw [renderLines, ih]
      simp

theorem renderLines_getLast? (σ : List Nat → List Nat) (width : Int) (justify : Bool) :
    ∀ {ls : List (List Str)}, ls ≠ [] →
      (renderLines σ width justify ls).getLast? = ls.getLast?.map joinWords := by
  intro ls
  induction ls with
  | nil => intro h; exact absurd rfl h
  | cons l ls ih =>
    intro _
    cases ls with
    | nil => simp [renderLines]
    | cons l₂ ls₂ =>
      rw [renderLines]
      rw [getLast?_cons_of_ne_nil _ (renderLines_ne_nil σ width justify (List.cons_ne_nil _ _))]
      rw [ih (List.cons_ne_nil _ _)]
      rw [getLast?_cons_of_ne_nil _ (List.cons_ne_nil _ _)]

theorem renderLines_dropLast (σ : List Nat → List Nat) (width : Int) (justify : Bool) :
    ∀ (ls : List (List Str)),
      (renderLines σ width justify ls).dropLast =
        ls.dropLast.map
          (fun l => if justify then JustifyLine σ l width else joinWords l) := by
  intro ls
  induction ls with
  | nil => rfl
  | cons l ls ih =>
    cases ls with
    | nil => rfl
    | cons l₂ ls₂ =>
      rw [renderLines]
      rw [List.dropLast_cons_of_ne_nil (renderLines_ne_nil σ width justify (List.cons_ne_nil _ _))]
      rw [ih]
      rfl

theorem renderLines_mem_good (σ : List Nat → List Nat) (width : Int) (justify : Bool) :
    ∀ (ls : List (List Str)),
      (∀ l ∈ ls, l ≠ [] ∧ ∀ x ∈ l, x ≠ [] ∧ '\n' ∉ x) →
      ∀ r ∈ renderLines σ width justify ls, r ≠ [] ∧ '\n' ∉ r := by
  intro ls
  induction ls with
  | nil => intro _ r hr; simp [renderLines] at hr
  | cons l ls ih =>
    intro h r hr
    have hl := h l (by simp)
    have hjoin_ne : joinWords l ≠ [] :=
      joinWords_ne_nil hl.1 (fun x hx => (hl.2 x hx).1)
    have hjoin_nl : '\n' ∉ joinWords l :=
      not_mem_joinWords (by decide) (fun x hx => (hl.2 x hx).2)
    cases ls with
    | nil =>
      simp only [renderLines] at hr
      rcases List.mem_singleton.mp hr with h₁
      subst h₁
      exact ⟨hjoin_ne, hjoin_nl⟩
    | cons l₂ ls₂ =>
      rw [renderLines] at hr
      rcases List.mem_cons.mp hr with h₁ | h₂
      · subst h₁
        by_cases hj : justify
        · rw [if_pos hj]
          constructor
          · exact justifyLine_ne_nil σ width hjoin_ne
          · exact justifyLineAux_not_mem (by decide) σ width _ l []
              (fun x hx => (hl.2 x hx).2)
        · rw [if_neg hj]
          exact ⟨hjoin_ne, hjoin_nl⟩
      · exact ih (fun x hx => h x (List.mem_cons_of_mem _ hx)) r h₂

theorem paraLines_ne_nil (σ : List Nat → List Nat) (width : Int) (justify : Bool)
    (p : Str) : paraLines σ width justify p ≠ [] :=
  renderLines_ne_nil σ width justify (fillLines_ne_nil width (splitWords p) [])

/-! ### Lemmas about `splitWordsAux` and `splitWords` -/

theorem splitWordsAux_cons_space_nil {c : Char} (hc : isSpace c = true) (rest : Str) :
    splitWordsAux (c :: rest) [] = splitWordsAux rest [] := by
  rw [splitWordsAux, if_pos hc]

theorem splitWordsAux_cons_nonspace {c : Char} (hc : isSpace c = false)
    (rest acc : Str) : splitWordsAux (c :: rest) acc = splitWordsAux rest (c :: acc) := by
  cases acc with
  | nil => rw [splitWordsAux, if_neg (by simp [hc])]
  | cons a as => rw [splitWordsAux, if_neg (by simp [hc])]

theorem splitWordsAux_mem (s : Str) :
    ∀ (acc : Str), (∀ c ∈ acc, isSpace c = false) →
      ∀ w ∈ splitWordsAux s acc, w ≠ [] ∧ ∀ c ∈ w, isSpace c = false := by
  induction s with
  | nil =>
    intro acc hacc w hw
    cases acc with
    | nil => simp [splitWordsAux] at hw
    | cons a as =>
      simp only [splitWordsAux] at hw
      rcases List.mem_singleton.mp hw with h₁
      subst h₁
      exact ⟨by simp, fun c hc => hacc c (List.mem_reverse.mp hc)⟩
  | cons c rest ih =>
    intro acc hacc w hw
    by_cases hc : isSpace c = true
    · cases acc with
      | nil =>
        rw [splitWordsAux_cons_space_nil hc] at hw
        exact ih [] (by simp) w hw
      | cons a as =>
        rw [splitWordsAux, if_pos hc] at hw
        rcases List.mem_cons.mp hw with h₁ | h₂
        · subst h₁
          exact ⟨by simp, fun x hx => hacc x (List.mem_reverse.mp hx)⟩
        · exact ih [] (by simp) w h₂
    · have hc₂ : isSpace c = false := by
        cases h : isSpace c
        · rfl
        · exact absurd h hc
      rw [splitWordsAux_cons_nonspace hc₂] at hw
      exact ih (c :: acc)
        (fun x hx => (List.mem_cons.mp hx).elim (fun h => h ▸ hc₂) (hacc x)) w hw

theorem splitWords_mem {s : Str} :
    ∀ w ∈ splitWords s, w ≠ [] ∧ ∀ c ∈ w, isSpace c = false :=
  fun w hw => splitWordsAux_mem s [] (by simp) w hw

theorem splitWordsAux_word {w : Str} (hw : ∀ c ∈ w, isSpace c = false) :
    ∀ (s acc : Str), splitWordsAux (w ++ s) acc = splitWordsAux s (w.reverse ++ acc) := by
  induction w with
  | nil => intro s acc; simp
  | cons c w ih =>
    intro s acc
    have hc : isSpace c = false := hw c (by simp)
    rw [List.cons_append, splitWordsAux_cons_nonspace hc]
    rw [ih (fun x hx => hw x (List.mem_cons_of_mem _ hx)) s (c :: acc)]
    simp

theorem splitWordsAux_space {c : Char} (hc : isSpace c = true) {acc : Str}
    (hacc : acc ≠ []) (s : Str) :
    splitWordsAux (c :: s) acc = acc.reverse :: splitWordsAux s [] := by
  cases acc with
  | nil => exact absurd rfl hacc
  | cons a as =>
    rw [splitWordsAux, if_pos hc]

theorem splitWords_single {w : Str} (hne : w ≠ [])
    (hw : ∀ c ∈ w, isSpace c = false) : splitWords w = [w] := by
  have h₁ : splitWords w = splitWordsAux (w ++ []) [] := by rw [List.append_nil]; rfl
  rw [h₁, splitWordsAux_word hw [] []]
  rcases List.exists_cons_of_ne_nil (by simpa using hne : w.reverse ≠ []) with ⟨a, as, h₂⟩
  rw [List.append_nil, h₂]
  show [(a :: as).reverse] = [w]
  rw [← h₂, List.reverse_reverse]

theorem splitWords_join_sep {c : Char} (hc : isSpace c = true) :
    ∀ (ws : List Str), (∀ w ∈ ws, w ≠ [] ∧ ∀ x ∈ w, isSpace x = false) →
      ∀ (s : Str), splitWords (joinWords ws ++ c :: s) = ws ++ splitWords s := by
  intro ws
  induction ws with
  | nil =>
    intro _ s
    show splitWordsAux (c :: s) [] = splitWords s
    rw [splitWordsAux_cons_space_nil hc]
    rfl
  | cons w ws ih =>
    intro h s
    have hw := h w (by simp)
    cases ws with
    | nil =>
      show splitWordsAux (w ++ c :: s) [] = w :: splitWords s
      rw [splitWordsAux_word hw.2, List.append_nil,
        splitWordsAux_space hc (by simpa using hw.1), List.reverse_reverse]
      rfl
    | cons w₂ ws₂ =>
      rw [joinWords_cons_of_ne_nil _ (List.cons_ne_nil _ _)]
      show splitWordsAux ((w ++ ' ' :: joinWords (w₂ :: ws₂)) ++ c :: s) [] = _
      rw [List.append_assoc, splitWordsAux_word hw.2, List.append_nil, List.cons_append,
        splitWordsAux_space (by decide) (by simpa using hw.1), List.reverse_reverse]
      exact congrArg (w :: ·) (ih (fun x hx => h x (List.mem_cons_of_mem _ hx)) s)

theorem splitWords_join (ws : List Str)
    (h : ∀ w ∈ ws, w ≠ [] ∧ ∀ x ∈ w, isSpace x = false) :
    splitWords (joinWords ws) = ws := by
  cases ws with
  | nil => rfl
  | cons w ws =>
    have hw := h w (by simp)
    cases ws with
    | nil => exact splitWords_single hw.1 hw.2
    | cons w₂ ws₂ =>
      rw [joinWords_cons_of_ne_nil _ (List.cons_ne_nil _ _)]
      show splitWordsAux (w ++ ' ' :: joinWords (w₂ :: ws₂)) [] = _
      rw [splitWordsAux_word hw.2, List.append_nil,
        splitWordsAux_space (by decide) (by simpa using hw.1), List.reverse_reverse]
      have := splitWords_join (w₂ :: ws₂) (fun x hx => h x (List.mem_cons_of_mem _ hx))
      exact congrArg (w :: ·) this

/-! ### Lemmas about `joinWith` and `splitNL` -/

theorem joinWith_cons_of_ne_nil (sep : Str) (x : Str) {xs : List Str} (h : xs ≠ []) :
    joinWith sep (x :: xs) = x ++ sep ++ joinWith sep xs := by
  cases xs with
  | nil => exact absurd rfl h
  | cons x₂ xs₂ => rfl

theorem splitNL_ne_nil : ∀ (s : Str), splitNL s ≠ [] := by
  intro s
  induction s with
  | nil => simp [splitNL]
  | cons c rest ih =>
    rw [splitNL]
    by_cases hc : c = '\n'
    · rw [if_pos hc]; simp
    · rw [if_neg hc]
      rcases h : splitNL rest with _ | ⟨p, ps⟩
      · simp
      · simp

theorem splitNL_of_no_newline {x : Str} (h : '\n' ∉ x) : splitNL x = [x] := by
  induction x with
  | nil => rfl
  | cons c rest ih =>
    have hc : c ≠ '\n' := fun hc => h (by simp [hc])
    rw [splitNL, if_neg hc, ih (fun hm => h (List.mem_cons_of_mem _ hm))]

theorem splitNL_append_newline {x : Str} (h : '\n' ∉ x) (y : Str) :
    splitNL (x ++ '\n' :: y) = x :: splitNL y := by
  induction x with
  | nil => rw [List.nil_append, splitNL, if_pos rfl]
  | cons c rest ih =>
    have hc : c ≠ '\n' := fun hc => h (by simp [hc])
    rw [List.cons_append, splitNL, if_neg hc,
      ih (fun hm => h (List.mem_cons_of_mem _ hm))]

theorem splitNL_joinWith : ∀ (lines : List Str), lines ≠ [] →
    (∀ l ∈ lines, '\n' ∉ l) → splitNL (joinWith ['\n'] lines) = lines := by
  intro lines
  induction lines with
  | nil => intro h _; exact absurd rfl h
  | cons l ls ih =>
    intro _ h
    cases ls with
    | nil => exact splitNL_of_no_newline (h l (by simp))
    | cons l₂ ls₂ =>
      rw [joinWith_cons_of_ne_nil _ _ (List.cons_ne_nil _ _), List.append_assoc,
        List.cons_append, List.nil_append,
        splitNL_append_newline (h l (by simp)),
        ih (List.cons_ne_nil _ _) (fun x hx => h x (List.mem_cons_of_mem _ hx))]

/-! ### The line decomposition of `FillParagraphs` -/

theorem allLines_ne_nil (σ : List Nat → List Nat) (width : Int) (justify : Bool) :
    ∀ {ps : List Str}, ps ≠ [] → allLines σ width justify ps ≠ [] := by
  intro ps hne
  cases ps with
  | nil => exact absurd rfl hne
  | cons p ps =>
    cases ps with
    | nil => exact paraLines_ne_nil σ width justify p
    | cons p₂ ps₂ => simp [allLines]

theorem joinWith_newline_append (xs : List Str) (hxs : xs ≠ []) (ys : List Str)
    (hys : ys ≠ []) :
    joinWith ['\n'] (xs ++ ys) = joinWith ['\n'] xs ++ '\n' :: joinWith ['\n'] ys := by
  induction xs with
  | nil => exact absurd rfl hxs
  | cons x xs ih =>
    cases xs with
    | nil =>
      rw [List.singleton_append, joinWith_cons_of_ne_nil _ _ hys]
      simp [joinWith]
    | cons x₂ xs₂ =>
      rw [List.cons_append, joinWith_cons_of_ne_nil _ _ (by simp),
        joinWith_cons_of_ne_nil _ _ (List.cons_ne_nil _ _), ih (List.cons_ne_nil _ _)]
      simp

theorem fillParagraphs_eq_allLines (σ : List Nat → List Nat) (width : Int)
    (justify : Bool) :
    ∀ (ps : List Str),
      joinWith ['\n', '\n'] (ps.map (fillPara σ width justify)) =
        joinWith ['\n'] (allLines σ width justify ps) := by
  intro ps
  induction ps with
  | nil => rfl
  | cons p ps ih =>
    cases ps with
    | nil => rfl
    | cons p₂ ps₂ =>
      rw [List.map_cons, joinWith_cons_of_ne_nil _ _ (by simp), ih]
      show _ = joinWith ['\n'] (paraLines σ width justify p ++ [] :: allLines σ width justify (p₂ :: ps₂))
      rw [joinWith_newline_append _ (paraLines_ne_nil σ width justify p) _ (List.cons_ne_nil _ _),
        joinWith_cons_of_ne_nil _ _ (allLines_ne_nil σ width justify (List.cons_ne_nil _ _))]
      simp [fillPara]

theorem fillParagraphs_lines (σ : List Nat → List Nat) (text : Str) (width : Int)
    (justify : Bool) :
    FillParagraphs σ text width justify =
      joinWith ['\n'] (allLines σ width justify (splitParas text)) :=
  fillParagraphs_eq_allLines σ width justify (splitParas text)

theorem allLines_mem (σ : List Nat → List Nat) (width : Int) (justify : Bool) :
    ∀ (ps : List Str), ∀ l ∈ allLines σ width justify ps,
      l = [] ∨ ∃ p ∈ ps, l ∈ paraLines σ width justify p := by
  intro ps
  induction ps with
  | nil => intro l hl; simp [allLines] at hl
  | cons p ps ih =>
    intro l hl
    cases ps with
    | nil => exact Or.inr ⟨p, by simp, hl⟩
    | cons p₂ ps₂ =>
      rw [allLines] at hl
      rcases List.mem_append.mp hl with h₁ | h₂
      · exact Or.inr ⟨p, by simp, h₁⟩
      · rcases List.mem_cons.mp h₂ with h₃ | h₄
        · exact Or.inl h₃
        · rcases ih l h₄ with h₅ | ⟨q, hq, hq₂⟩
          · exact Or.inl h₅
          · exact Or.inr ⟨q, List.mem_cons_of_mem _ hq, hq₂⟩

/-! ### Lemmas about `noNN`, `splitParasAux` and `splitParas` -/

theorem head?_ne_newline_of_not_mem {r : Str} (h : '\n' ∉ r) :
    r.head? ≠ some '\n' :=
  fun hc => h (List.mem_of_mem_head? hc)

theorem getLast?_ne_newline_of_not_mem {r : Str} (h : '\n' ∉ r) :
    r.getLast? ≠ some '\n' :=
  fun hc => h (List.mem_of_mem_getLast? hc)

theorem noNN_cons_elim {c : Char} {rest : Str} (h : noNN (c :: rest) = true) :
    (c = '\n' → rest.head? ≠ some '\n') ∧ noNN rest = true := by
  rw [noNN, Bool.and_eq_true, Bool.not_eq_true', Bool.and_eq_false_iff] at h
  refine ⟨fun hc hh => ?_, h.2⟩
  rcases h.1 with h₁ | h₁
  · rw [hc] at h₁
    simp at h₁
  · rw [hh] at h₁
    simp at h₁

theorem noNN_of_not_mem {r : Str} (h : '\n' ∉ r) : noNN r = true := by
  induction r with
  | nil => rfl
  | cons c rest ih =>
    have hc : c ≠ '\n' := fun hc => h (by simp [hc])
    rw [noNN, Bool.and_eq_true, Bool.not_eq_true']
    constructor
    · rw [Bool.and_eq_false_iff]
      left
      exact beq_eq_false_iff_ne.mpr hc
    · exact ih (fun hm => h (List.mem_cons_of_mem _ hm))

theorem noNN_append {x : Str} (hx : '\n' ∉ x) {y : Str} (hy : noNN y = true) :
    noNN (x ++ y) = true := by
  induction x with
  | nil => exact hy
  | cons c rest ih =>
    have hc : c ≠ '\n' := fun hc => hx (by simp [hc])
    rw [List.cons_append, noNN, Bool.and_eq_true, Bool.not_eq_true']
    constructor
    · rw [Bool.and_eq_false_iff]
      left
      exact beq_eq_false_iff_ne.mpr hc
    · exact ih (fun hm => hx (List.mem_cons_of_mem _ hm))

theorem splitParasAux_ne_nil : ∀ (s : Str) (pending : Nat) (acc : Str),
    splitParasAux s pending acc ≠ [] := by
  intro s
  induction s with
  | nil =>
    intro pending acc
    rw [splitParasAux]
    by_cases h : 2 ≤ pending
    · rw [if_pos h]; simp
    · rw [if_neg h]; simp
  | cons c rest ih =>
    intro pending acc
    rw [splitParasAux]
    by_cases hc : c = '\n'
    · rw [if_pos hc]
      exact ih _ _
    · rw [if_neg hc]
      by_cases hp : 2 ≤ pending
      · rw [if_pos hp]; simp
      · rw [if_neg hp]
        exact ih _ _

theorem splitParas_ne_nil (s : Str) : splitParas s ≠ [] :=
  splitParasAux_ne_nil s 0 []

theorem splitParasAux_solid : ∀ (s : Str) (pending : Nat) (acc : Str),
    noNN s = true → s.getLast? ≠ some '\n' → pending ≤ 1 →
    (pending = 1 → s.head? ≠ some '\n') →
    splitParasAux s pending acc =
      [acc.reverse ++ List.replicate pending '\n' ++ s] := by
  intro s
  induction s with
  | nil =>
    intro pending acc _ _ hp _
    rw [splitParasAux, if_neg (by omega)]
    simp
  | cons c rest ih =>
    intro pending acc hnn hlast hp hp1
    rcases noNN_cons_elim hnn with ⟨hcnl, hnn₂⟩
    by_cases hc : c = '\n'
    · subst hc
      have hp0 : pending = 0 := by
        by_contra hne0
        exact hp1 (by omega) rfl
      subst hp0
      have hrest_ne : rest ≠ [] := by
        intro hr
        subst hr
        exact hlast rfl
      have hlast₂ : rest.getLast? ≠ some '\n' := by
        rw [getLast?_cons_of_ne_nil _ hrest_ne] at hlast
        exact hlast
      rw [splitParasAux, if_pos rfl]
      rw [ih 1 acc hnn₂ hlast₂ (Nat.le_refl 1) (fun _ => hcnl rfl)]
      simp
    · have hp2 : ¬2 ≤ pending := by omega
      rw [splitParasAux, if_neg hc, if_neg hp2]
      have hlast₂ : rest.getLast? ≠ some '\n' := by
        by_cases hr : rest = []
        · subst hr; simp
        · rw [getLast?_cons_of_ne_nil _ hr] at hlast
          exact hlast
      rw [ih 0 _ hnn₂ hlast₂ (by omega) (by omega)]
      simp

theorem splitParasAux_sep : ∀ (p : Str) (pending : Nat) (acc y : Str),
    noNN p = true → p.getLast? ≠ some '\n' → pending ≤ 1 →
    (pending = 1 → (p ++ '\n' :: '\n' :: y).head? ≠ some '\n') →
    y.head? ≠ some '\n' →
    splitParasAux (p ++ '\n' :: '\n' :: y) pending acc =
      (acc.reverse ++ List.replicate pending '\n' ++ p) :: splitParasAux y 0 [] := by
  intro p
  induction p with
  | nil =>
    intro pending acc y _ _ hp hp1 hy
    have hp0 : pending = 0 := by
      by_contra hne0
      exact hp1 (by omega) rfl
    subst hp0
    rw [List.nil_append, splitParasAux, if_pos rfl, splitParasAux, if_pos rfl]
    cases y with
    | nil =>
      rw [splitParasAux, if_pos (by omega)]
      rw [splitParasAux, if_neg (by omega)]
      simp
    | cons d y₂ =>
      have hd : d ≠ '\n' := fun hd => hy (by rw [hd]; rfl)
      rw [splitParasAux, if_neg hd, if_pos (by omega)]
      rw [splitParasAux, if_neg hd, if_neg (by omega)]
      simp
  | cons c p₂ ih =>
    intro pending acc y hnn hlast hp hp1 hy
    rcases noNN_cons_elim hnn with ⟨hcnl, hnn₂⟩
    by_cases hc : c = '\n'
    · subst hc
      have hp0 : pending = 0 := by
        by_contra hne0
        exact hp1 (by omega) rfl
      subst hp0
      have hp₂_ne : p₂ ≠ [] := by
        intro hr
        subst hr
        exact hlast rfl
      have hlast₂ : p₂.getLast? ≠ some '\n' := by
        rw [getLast?_cons_of_ne_nil _ hp₂_ne] at hlast
        exact hlast
      rw [List.cons_append, splitParasAux, if_pos rfl]
      rw [ih 1 acc y hnn₂ hlast₂ (Nat.le_refl 1)
        (fun _ => by
          rw [List.head?_append_of_ne_nil _ hp₂_ne]
          exact hcnl rfl) hy]
      simp
    · have hp2 : ¬2 ≤ pending := by omega
      rw [List.cons_append, splitParasAux, if_neg hc, if_neg hp2]
      have hlast₂ : p₂.getLast? ≠ some '\n' := by
        by_cases hr : p₂ = []
        · subst hr; simp
        · rw [getLast?_cons_of_ne_nil _ hr] at hlast
          exact hlast
      rw [ih 0 _ y hnn₂ hlast₂ (by omega) (by omega) hy]
      simp

theorem joinWith_head? {sep : Str} : ∀ {xs : List Str} {x : Str}, x ≠ [] →
    (joinWith sep (x :: xs)).head? = x.head? := by
  intro xs x hx
  cases xs with
  | nil => rfl
  | cons x₂ xs₂ =>
    rw [joinWith_cons_of_ne_nil _ _ (List.cons_ne_nil _ _), List.append_assoc,
      List.head?_append_of_ne_nil _ hx]

theorem splitParas_joinWith : ∀ (ps : List Str), ps ≠ [] →
    (∀ p ∈ ps, solidPiece p) →
    splitParas (joinWith ['\n', '\n'] ps) = ps := by
  intro ps
  induction ps with
  | nil => intro h _; exact absurd rfl h
  | cons p ps ih =>
    intro _ h
    rcases h p (by simp) with ⟨hne, hhead, hlast, hnn⟩
    cases ps with
    | nil =>
      show splitParasAux p 0 [] = [p]
      rw [splitParasAux_solid p 0 [] hnn hlast (by omega) (by omega)]
      simp
    | cons p₂ ps₂ =>
      rw [joinWith_cons_of_ne_nil _ _ (List.cons_ne_nil _ _), List.append_assoc]
      show splitParasAux (p ++ '\n' :: '\n' :: joinWith ['\n', '\n'] (p₂ :: ps₂)) 0 [] = _
      rw [splitParasAux_sep p 0 [] _ hnn hlast (by omega) (by omega)
        (by
          rw [joinWith_head? (h p₂ (by simp)).1]
          exact (h p₂ (by simp)).2.1)]
      rw [List.reverse_nil, List.nil_append, List.replicate, List.nil_append]
      exact congrArg (p :: ·) (ih (List.cons_ne_nil _ _)
        (fun q hq => h q (List.mem_cons_of_mem _ hq)))

/-! ### Paragraph pieces produced by `fillPara` are solid -/

theorem noNN_newline_cons {J : Str} (hh : J.head? ≠ some '\n') (hnn : noNN J = true) :
    noNN ('\n' :: J) = true := by
  rw [noNN, Bool.and_eq_true, Bool.not_eq_true']
  refine ⟨?_, hnn⟩
  rw [Bool.and_eq_false_iff]
  right
  exact beq_eq_false_iff_ne.mpr hh

theorem joinWith_newline_solid : ∀ (rs : List Str), rs ≠ [] →
    (∀ r ∈ rs, r ≠ [] ∧ '\n' ∉ r) → solidPiece (joinWith ['\n'] rs) := by
  intro rs
  induction rs with
  | nil => intro h _; exact absurd rfl h
  | cons r rs ih =>
    intro _ h
    rcases h r (by simp) with ⟨hrne, hrnl⟩
    cases rs with
    | nil =>
      exact ⟨hrne, head?_ne_newline_of_not_mem hrnl,
        getLast?_ne_newline_of_not_mem hrnl, noNN_of_not_mem hrnl⟩
    | cons r₂ rs₂ =>
      rcases ih (List.cons_ne_nil _ _) (fun x hx => h x (List.mem_cons_of_mem _ hx))
        with ⟨hJne, hJhead, hJlast, hJnn⟩
      rw [joinWith_cons_of_ne_nil _ _ (List.cons_ne_nil _ _), List.append_assoc]
      show solidPiece (r ++ '\n' :: joinWith ['\n'] (r₂ :: rs₂))
      refine ⟨?_, ?_, ?_, ?_⟩
      · simp
      · rw [List.head?_append_of_ne_nil _ hrne]
        exact head?_ne_newline_of_not_mem hrnl
      · rw [List.getLast?_append_of_ne_nil _ (List.cons_ne_nil _ _),
          getLast?_cons_of_ne_nil _ hJne]
        exact hJlast
      · exact noNN_append hrnl (noNN_newline_cons hJhead hJnn)

theorem fillPara_solid (σ : List Nat → List Nat) (width : Int) (justify : Bool)
    {p : Str} (h : splitWords p ≠ []) :
    solidPiece (fillPara σ width justify p) := by
  apply joinWith_newline_solid _ (paraLines_ne_nil σ width justify p)
  apply renderLines_mem_good σ width justify (fillLines width (splitWords p) [])
  intro l hl
  refine ⟨fillLines_mem_ne_nil width _ [] (Or.inl h) l hl, ?_⟩
  refine fillLines_mem_prop width (fun x => x ≠ [] ∧ '\n' ∉ x) _ [] ?_ (by simp) l hl
  intro w hw
  refine ⟨(splitWords_mem w hw).1, fun hm => ?_⟩
  have h₁ := (splitWords_mem w hw).2 '\n' hm
  have h₂ : isSpace '\n' = true := by decide
  rw [h₁] at h₂
  exact Bool.false_ne_true h₂

/-- The central re-splitting lemma: when every paragraph of the input has at
least one word, splitting the output of `FillParagraphs` at `\n\n+` recovers
exactly the filled paragraphs. -/
theorem splitParas_fill (σ : List Nat → List Nat) (text : Str) (width : Int)
    (justify : Bool) (h : ∀ p ∈ splitParas text, splitWords p ≠ []) :
    splitParas (FillParagraphs σ text width justify) =
      (splitParas text).map (fillPara σ width justify) := by
  show splitParas (joinWith ['\n', '\n']
    ((splitParas text).map (fillPara σ width justify))) = _
  apply splitParas_joinWith
  · simpa using splitParas_ne_nil text
  · intro q hq
    rcases List.mem_map.mp hq with ⟨p, hp, rfl⟩
    exact fillPara_solid σ width justify (h p hp)

/-! ### Idempotence of filling (justify off) -/

theorem splitWords_joinLines : ∀ (lss : List (List Str)),
    (∀ ls ∈ lss, ls ≠ [] ∧ ∀ x ∈ ls, x ≠ [] ∧ ∀ c ∈ x, isSpace c = false) →
    splitWords (joinWith ['\n'] (lss.map joinWords)) = lss.flatten := by
  intro lss
  induction lss with
  | nil => intro _; rfl
  | cons ls lss ih =>
    intro h
    have hls : ∀ x ∈ ls, x ≠ [] ∧ ∀ c ∈ x, isSpace c = false :=
      fun x hx => (h ls (by simp)).2 x hx
    cases lss with
    | nil =>
      show splitWords (joinWords ls) = ls ++ []
      rw [splitWords_join ls hls, List.append_nil]
    | cons ls₂ lss₂ =>
      rw [List.map_cons, joinWith_cons_of_ne_nil _ _ (by simp), List.append_assoc]
      show splitWords (joinWords ls ++ '\n' :: joinWith ['\n'] ((ls₂ :: lss₂).map joinWords)) = _
      rw [splitWords_join_sep (by decide) ls hls,
        ih (fun x hx => h x (List.mem_cons_of_mem _ hx))]
      simp

theorem splitWords_fillPara (σ : List Nat → List Nat) (width : Int) (p : Str) :
    splitWords (fillPara σ width false p) = splitWords p := by
  by_cases h : splitWords p = []
  · rw [fillPara, paraLines, h]
    rfl
  · rw [fillPara, paraLines, renderLines_false_eq_map]
    rw [splitWords_joinLines (fillLines width (splitWords p) []) ?props]
    · rw [fillLines_flatten]
      rfl
    case props =>
      intro ls hls
      refine ⟨fillLines_mem_ne_nil width _ [] (Or.inl h) ls hls, ?_⟩
      exact fillLines_mem_prop width (fun x => x ≠ [] ∧ ∀ c ∈ x, isSpace c = false)
        _ [] (fun w hw => splitWords_mem w hw) (by simp) ls hls

theorem fillPara_idem (σ : List Nat → List Nat) (width : Int) (p : Str) :
    fillPara σ width false (fillPara σ width false p) = fillPara σ width false p := by
  show joinWith ['\n'] (renderLines σ width false
    (fillLines width (splitWords (fillPara σ width false p)) [])) = _
  rw [splitWords_fillPara]
  rfl

/-! ### Failure analysis of `FormatTable` -/

theorem formatRows_eq_none_iff (maxl : Nat → Int) (colSpace rowSpace : Int) :
    ∀ (rows : List (List Str)),
      formatRows maxl colSpace rowSpace rows = none ↔ [] ∈ rows := by
  intro rows
  induction rows with
  | nil => simp [formatRows]
  | cons row rows ih =>
    cases row with
    | nil => simp [formatRows, formatRow]
    | cons c cs =>
      rw [formatRows]
      constructor
      · intro h
        cases hrec : formatRows maxl colSpace rowSpace rows with
        | none => exact List.mem_cons_of_mem _ (ih.mp hrec)
        | some rest => rw [formatRow, hrec] at h; simp at h
      · intro h
        rcases List.mem_cons.mp h with h₁ | h₂
        · exact absurd h₁.symm (List.cons_ne_nil c cs)
        · rw [formatRow, ih.mpr h₂]
          rfl

theorem tableLayout_eq_none_iff (maxl : Nat → Int) (rs cs : Int)
    (rows : List (List Str)) : tableLayout maxl rs cs rows = none ↔ [] ∈ rows := by
  rw [tableLayout, Option.map_eq_none']
  exact formatRows_eq_none_iff maxl cs rs rows

/-! ### The claims -/

/-- C1 (corrected): when `justify` is truthy, `FormatTable` replaces every
cell by `FillParagraphs(cell, COL_WIDTH)` with the fill's `justify` argument
left at its default `false` — cells are wrapped to the column width but
their lines are not stretched; when `justify` is not set, the cells pass
through to the layout completely unchanged. -/
theorem formatTable_cell_transform (σ : List Nat → List Nat)
    (t : List (List Str)) (rs cs cw tw : Int) :
    FormatTable σ t rs cs cw tw true = formatTableWrappedCells σ t rs cs cw
    ∧ FormatTable σ t rs cs cw tw false =
        tableLayout (fun i => min (colMax t i) cw) rs cs t :=
  ⟨rfl, rfl⟩

/-- C1, counterexample to the claim as stated: on the one-cell table
`[["aa bb cc"]]` with `COL_WIDTH = 6`, `FormatTable` with `justify` set
produces the unjustified wrap `"aa bb\ncc"`, not the justified
`"aa  bb\ncc"` that replacing cells by `fill(cell, colWidth, justify=true)`
would give. -/
theorem formatTable_cell_transform_counterexample :
    FormatTable idShuffle [[("aa bb cc".toList)]] 2 3 6 80 true ≠
      formatTableClaimJustified idShuffle [[("aa bb cc".toList)]] 2 3 6 := by
  decide

/-- C2 (code_bug): `FormatTable` fails exactly when the table contains a
row with zero cells — but via the propagated IndexError of `row[0]`
(modelled as `none`), not via an explicit `EmptyRowError`-equivalent as the
spec demands; the empty table formats to the empty string without failing. -/
theorem formatTable_empty_row_fault (σ : List Nat → List Nat)
    (t : List (List Str)) (rs cs cw tw : Int) (j : Bool) :
    (FormatTable σ t rs cs cw tw j = none ↔ [] ∈ t)
    ∧ FormatTable σ [] rs cs cw tw j = some [] := by
  constructor
  · show tableLayout (fun i => min (colMax t i) cw) rs cs
      (if j then t.map (fun row => row.map (fun cell => FillParagraphs σ cell cw false))
       else t) = none ↔ [] ∈ t
    rw [tableLayout_eq_none_iff]
    cases j with
    | false => simp
    | true =>
      simp only [if_pos]
      constructor
      · intro h
        rcases List.mem_map.mp h with ⟨row, hrow, hmap⟩
        rw [List.map_eq_nil_iff] at hmap
        exact hmap ▸ hrow
      · intro h
        exact List.mem_map.mpr ⟨[], h, rfl⟩
  · cases j <;> rfl

/-- C3 (code_bug): `FillParagraphs` performs no width validation at all — a
zero or negative width raises nothing and instead yields one word per line,
where the spec demands an `InvalidWidthError`. -/
theorem fillParagraphs_nonpositive_width_no_error :
    FillParagraphs idShuffle ("hello world".toList) 0 false = ("hello\nworld".toList)
    ∧ FillParagraphs idShuffle ("hello world".toList) (-7) false =
        ("hello\nworld".toList) := by
  decide

/-- C4 (confirmed): with `justify = false` and positive width, every line
of the `FillParagraphs` output either fits within `width` or consists of a
single word (it contains no whitespace character at all) — the permitted
overflow of a word longer than the width. -/
theorem fillParagraphs_line_width (σ : List Nat → List Nat) (text : Str)
    {width : Int} (hw : 0 < width) :
    ∀ l ∈ splitNL (FillParagraphs σ text width false),
      (l.length : Int) ≤ width ∨ ∀ c ∈ l, isSpace c = false := by
  have hwordsP : ∀ (p : Str), ∀ lw ∈ fillLines width (splitWords p) [],
      ∀ x ∈ lw, x ≠ [] ∧ ∀ c ∈ x, isSpace c = false := by
    intro p
    exact fillLines_mem_prop width _ _ [] (fun w hw₂ => splitWords_mem w hw₂) (by simp)
  have hnl : ∀ l ∈ allLines σ width false (splitParas text), '\n' ∉ l := by
    intro l hl
    rcases allLines_mem σ width false (splitParas text) l hl with h₁ | ⟨p, _, hlp⟩
    · subst h₁; simp
    · rw [paraLines, renderLines_false_eq_map] at hlp
      rcases List.mem_map.mp hlp with ⟨lw, hlw, rfl⟩
      apply not_mem_joinWords (by decide)
      intro x hx hm
      have h₂ := (hwordsP p lw hlw x hx).2 '\n' hm
      have h₃ : isSpace '\n' = true := by decide
      rw [h₂] at h₃
      exact Bool.false_ne_true h₃
  intro l hl
  rw [fillParagraphs_lines σ text width false,
    splitNL_joinWith _ (allLines_ne_nil σ width false (splitParas_ne_nil text)) hnl] at hl
  rcases allLines_mem σ width false (splitParas text) l hl with h₁ | ⟨p, _, hlp⟩
  · subst h₁
    left
    exact le_of_lt (by simpa using hw)
  · rw [paraLines, renderLines_false_eq_map] at hlp
    rcases List.mem_map.mp hlp with ⟨lw, hlw, rfl⟩
    rcases fillLines_width_bound width (splitWords p) [] (Or.inl (by simp)) lw hlw
      with h₂ | h₂
    · cases lw with
      | nil =>
        left
        exact le_of_lt (by simpa [joinWords] using hw)
      | cons x lw₂ =>
        cases lw₂ with
        | nil =>
          right
          intro c hc
          exact (hwordsP p [x] hlw x (by simp)).2 c hc
        | cons y lw₃ => simp at h₂
    · left
      exact h₂

/-- C4, witness at text `"hello world foo"` and width 11. -/
theorem fillParagraphs_line_width_witness :
    (0 : Int) < 11
    ∧ ∀ l ∈ splitNL (FillParagraphs idShuffle ("hello world foo".toList) 11 false),
        (l.length : Int) ≤ 11 ∨ ∀ c ∈ l, isSpace c = false :=
  ⟨by decide, fillParagraphs_line_width idShuffle ("hello world foo".toList) (by decide)⟩

/-- C5 (confirmed): for every shuffle oracle that permutes its input and
every non-empty word list, `JustifyLine` returns a string of length at
least the target width; if the single-space join already reaches the target
width it is returned unchanged; and every non-final line of every paragraph
produced by `FillParagraphs` with `justify = true` has length at least the
width. -/
theorem justifyLine_spec (σ : List Nat → List Nat)
    (hσ : ∀ l, List.Perm (σ l) l) (line : List Str) (hline : line ≠ [])
    (width : Int) :
    width ≤ ((JustifyLine σ line width).length : Int)
    ∧ (width ≤ ((joinWords line).length : Int) →
        JustifyLine σ line width = joinWords line)
    ∧ ∀ (text p : Str), p ∈ splitParas text →
        ∀ l ∈ (paraLines σ width true p).dropLast, width ≤ (l.length : Int) := by
  refine ⟨justifyLine_width_le σ hσ hline width,
    fun h => justifyLine_of_already_wide σ h, ?_⟩
  intro text p _ l hl
  rw [paraLines, renderLines_dropLast] at hl
  rcases List.mem_map.mp hl with ⟨lw, hlw, rfl⟩
  have hlw_ne : lw ≠ [] := fillLines_dropLast_ne_nil width (splitWords p) [] lw hlw
  exact justifyLine_width_le σ hσ hlw_ne width

/-- C5, witness: the two-word line `["aa", "bb"]` justified to width 7. -/
theorem justifyLine_spec_witness :
    (7 : Int) ≤ ((JustifyLine idShuffle [['a', 'a'], ['b', 'b']] 7).length : Int) :=
  (justifyLine_spec idShuffle (fun l => List.Perm.refl l) [['a', 'a'], ['b', 'b']]
    (by decide) 7).1

/-- C6 (confirmed): with `justify = true`, the last rendered line of every
paragraph is the plain single-space join of that line's words — it is never
passed through `JustifyLine`. -/
theorem lastLine_unjustified (σ : List Nat → List Nat) (width : Int)
    (text p : Str) (hp : p ∈ splitParas text) :
    (paraLines σ width true p).getLast? =
      ((fillLines width (splitWords p) []).getLast?).map joinWords :=
  renderLines_getLast? σ width true (fillLines_ne_nil width (splitWords p) [])

/-- C6, witness at the one-paragraph text `"a b"` and width 1. -/
theorem lastLine_unjustified_witness :
    (paraLines idShuffle 1 true ("a b".toList)).getLast? =
      ((fillLines 1 (splitWords ("a b".toList)) []).getLast?).map joinWords :=
  lastLine_unjustified idShuffle 1 ("a b".toList) ("a b".toList) (by decide)

/-- C7 (corrected): the `re.split(r'\n\n+', ...)` piece list is mapped
elementwise and rejoined with exactly two newlines, so when every input
paragraph contains at least one word the re-parsed paragraphs of the output
are exactly the filled paragraphs and the paragraph count is preserved. -/
theorem fillParagraphs_paragraph_structure (σ : List Nat → List Nat)
    (text : Str) (width : Int) (justify : Bool)
    (h : ∀ p ∈ splitParas text, splitWords p ≠ []) :
    FillParagraphs σ text width justify =
      joinWith ['\n', '\n'] ((splitParas text).map (fillPara σ width justify))
    ∧ splitParas (FillParagraphs σ text width justify) =
        (splitParas text).map (fillPara σ width justify)
    ∧ (splitParas (FillParagraphs σ text width justify)).length =
        (splitParas text).length :=
  ⟨rfl, splitParas_fill σ text width justify h,
    by rw [splitParas_fill σ text width justify h]; simp⟩

/-- C7, witness: a 3-newline separator is normalised to 2 and the paragraph
count is preserved. -/
theorem fillParagraphs_paragraph_structure_witness :
    (splitParas (FillParagraphs idShuffle ("a\n\n\nb".toList) 80 false)).length =
      (splitParas ("a\n\n\nb".toList)).length :=
  (fillParagraphs_paragraph_structure idShuffle ("a\n\n\nb".toList) 80 false
    (by decide)).2.2

/-- C7, counterexample to the claim as stated: the whitespace-only middle
paragraph of `"a\n\n \n\nb"` fills to the empty string, the output is
`"a\n\n\n\nb"`, and re-splitting it yields 2 paragraphs where the input had
3 — the count is not preserved for every input. -/
theorem fillParagraphs_paragraph_count_counterexample :
    (splitParas (FillParagraphs idShuffle ("a\n\n \n\nb".toList) 80 false)).length ≠
      (splitParas ("a\n\n \n\nb".toList)).length := by
  decide

/-- C8 (corrected): at a fixed positive width with `justify = false`,
filling is idempotent on every text whose paragraphs all contain at least
one word: the word sequence of each paragraph is preserved by the first
fill, so refilling reproduces the identical output. -/
theorem fillParagraphs_idem (σ : List Nat → List Nat) (text : Str)
    (width : Int) (hw : 0 < width)
    (h : ∀ p ∈ splitParas text, splitWords p ≠ []) :
    FillParagraphs σ (FillParagraphs σ text width false) width false =
      FillParagraphs σ text width false := by
  show joinWith ['\n', '\n'] ((splitParas (FillParagraphs σ text width false)).map
    (fillPara σ width false)) = _
  rw [splitParas_fill σ text width false h, List.map_map]
  have hfun : fillPara σ width false ∘ fillPara σ width false = fillPara σ width false :=
    funext (fun p => fillPara_idem σ width p)
  rw [hfun]
  rfl

/-- C8, witness at the text `"hello world hello"` and width 6. -/
theorem fillParagraphs_idem_witness :
    FillParagraphs idShuffle
        (FillParagraphs idShuffle ("hello world hello".toList) 6 false) 6 false =
      FillParagraphs idShuffle ("hello world hello".toList) 6 false :=
  fillParagraphs_idem idShuffle ("hello world hello".toList) 6 (by decide) (by decide)

/-- C8, counterexample to the claim as stated: `"a\n\n \n\nb"` fills to
`"a\n\n\n\nb"`, whose refill is `"a\n\nb"` — idempotence fails when a
whitespace-only paragraph collapses to the empty string. -/
theorem fillParagraphs_idem_counterexample :
    FillParagraphs idShuffle
        (FillParagraphs idShuffle ("a\n\n \n\nb".toList) 80 false) 80 false ≠
      FillParagraphs idShuffle ("a\n\n \n\nb".toList) 80 false := by
  decide

/-- C9 (confirmed): `VertCatString` on single-line blocks concatenates
directly with no separator, padding the left line with spaces to the given
width first: `concat("AB", 2, "CD") = "ABCD"` and
`concat("A", 2, "CD") = "A CD"`. -/
theorem vertCat_single_line :
    VertCatString ("AB".toList) (some 2) ("CD".toList) = ("ABCD".toList)
    ∧ VertCatString ("A".toList) (some 2) ("CD".toList) = ("A CD".toList) := by
  decide

/-- C10 (confirmed): `FormatTable` never reads its `TABLE_WIDTH` parameter —
any two values give identical output for every table and every other
parameter setting. -/
theorem formatTable_ignores_table_width (σ : List Nat → List Nat)
    (t : List (List Str)) (rs cs cw tw₁ tw₂ : Int) (j : Bool) :
    FormatTable σ t rs cs cw tw₁ j = FormatTable σ t rs cs cw tw₂ j := rfl

end Textutils
